import Mathlib

/-!
Verification of the file-discovery engine of `bblua` (glob pattern matcher,
directory cache, recursive glob walk, and the multi-pattern include/exclude
aggregation), shallowly embedded from `src/glob.cc`, `src/dircache.cc` and
`src/dircache.h`.

Conventions of the embedding:

* Paths and path components are Lean `String`s / `List Char`; the C++ code
  works on byte views (`Path`), and we embed the case-sensitive (POSIX)
  build, where `charCmp<true>(a, b) = (int)a - (int)b`.
* Recursions that the C++ code performs over the (finite) filesystem or by
  backtracking are written with an explicit fuel parameter so that every
  definition is structurally recursive and therefore evaluable by the
  kernel; the canonical entry points instantiate the fuel with a bound
  that is provably sufficient (`globMatchF_congr` shows fuel-irrelevance).
* The filesystem is an oracle `fs : String → Option (List DirEntry)`;
  `none` models a directory that cannot be opened (`opendir` failing).
* The `Path` utility (`path.h`) is not part of the four translated source
  files; its `split`, `join`, `norm` and ordinal comparison are used by the
  translated code, so they are modelled from the spec's contract (§3) and
  marked as such; `norm` is kept as an uninterpreted oracle parameter.
-/

/-- The comparison `charCmp<true>` from `glob.cc`: case-sensitive character comparison,
`(int)a - (int)b`. -/
def charCmp (a b : Char) : Int := (a.toNat : Int) - (b.toNat : Int)

/-- Scan of `glob.cc:84-89`: find the closing `]` of a bracket class.
`findClose ps = some (cls, after)` means `ps = cls ++ ']' :: after` with no
`]` inside `cls`; `none` means the bracket class is unterminated. -/
def findClose : List Char → Option (List Char × List Char)
  | [] => none
  | c :: rest =>
    if c = ']' then some ([], rest)
    else (findClose rest).map (fun p => (c :: p.1, p.2))

/-- Fuel-indexed embedding of `globMatch<true>` from `glob.cc:37-121`.
The C++ function iterates over the pattern and recurses for `*`; one unit
of fuel is consumed per processed pattern item, so
`path.length + pattern.length` fuel always suffices (`globMatchF_congr`).

* `?` consumes one path character (`glob.cc:44-49`);
* `*` at the end of the pattern returns `true` (`glob.cc:54-55`); otherwise
  the loop `for (; i < path.length; ++i)` tries exactly the suffixes
  `path.drop k` for `k < path.length` — note the empty suffix
  (`k = path.length`) is never tried (`glob.cc:58-65`);
* `[`/`[!` consumes one path character if it is (is not) listed literally
  between the brackets; a missing `]` is a non-match (`glob.cc:68-107`);
* any other pattern character must compare equal (`glob.cc:109-115`);
* at the end of the pattern the path must be exhausted (`glob.cc:120`). -/
def globMatchF (fuel : Nat) (path pattern : List Char) : Bool :=
  match fuel, pattern with
  | _, [] => path.isEmpty
  | 0, _ :: _ => false
  | fuel + 1, c :: ps =>
    if c = '?' then
      match path with
      | [] => false
      | _ :: rest => globMatchF fuel rest ps
    else if c = '*' then
      if ps.isEmpty then true
      else (List.range path.length).any (fun k => globMatchF fuel (path.drop k) ps)
    else if c = '[' then
      match path with
      | [] => false
      | x :: rest =>
        match ps with
        | [] => false
        | p :: ps2 =>
          if p = '!' then
            match findClose ps2 with
            | none => false
            | some ca =>
              if ca.1.any (fun d => charCmp x d == 0) then false
              else globMatchF fuel rest ca.2
          else
            match findClose (p :: ps2) with
            | none => false
            | some ca =>
              if ca.1.any (fun d => charCmp x d == 0) then globMatchF fuel rest ca.2
              else false
    else
      match path with
      | [] => false
      | x :: rest => if charCmp x c == 0 then globMatchF fuel rest ps else false

/-- The entry point `globMatch` from `glob.cc` (case-sensitive build): the fuel
`path.length + pattern.length + 1` is sufficient, see `globMatchF_congr`. -/
def globMatch (path pattern : List Char) : Bool :=
  globMatchF (path.length + pattern.length + 1) path pattern

/-- The view of the matcher used by `lua_glob_match`, on whole strings. -/
def globMatchS (path pattern : String) : Bool :=
  globMatch path.data pattern.data

/-- Modelled from the spec: `PathView` supports "lexicographic/ordinal
comparison" (§3); `path.h` is not among the translated sources, so the
byte-wise (ordinal, case-sensitive) strict order used by `Path::compare`
and `operator<` is modelled here on the character lists. -/
def pathLtB : List Char → List Char → Bool
  | [], [] => false
  | [], _ :: _ => true
  | _ :: _, [] => false
  | a :: as, b :: bs =>
    if a < b then true
    else if b < a then false
    else pathLtB as bs

/-- The reflexive closure of `pathLtB`, as a proposition (used as the
sorting relation corresponding to C++ `std::sort` with `operator<`). -/
def pathLe (a b : String) : Prop := pathLtB a.data b.data = true ∨ a = b

instance pathLe.instDecidable : DecidableRel pathLe := fun a b =>
  inferInstanceAs (Decidable (pathLtB a.data b.data = true ∨ a = b))

/-- Modelled from the spec: `split() → (head, tail)` where `tail` is the
final path component and `head` is everything before it (§3);
`Path::split` itself lives in the untranslated `path.h`. The separator is
the POSIX `/`. -/
def splitPath (p : String) : String × String :=
  (⟨(((p.data.reverse).dropWhile (fun c => !(c == '/'))).drop 1).reverse⟩,
   ⟨((p.data.reverse).takeWhile (fun c => !(c == '/'))).reverse⟩)

/-- Modelled from the spec: `join(buf)` "appends this view's bytes to a
growing buffer with the platform path separator" (§3); a separator is only
placed between two non-empty parts, so joining with an empty component is
the identity (`Path::join` lives in the untranslated `path.h`). -/
def joinPath (a b : String) : String :=
  if a = "" then b else if b = "" then a else a ++ "/" ++ b

/-- The test `isGlobPattern` from `dircache.cc:133-144`: does the string contain
`?`, `*` or `[`. -/
def isGlobPattern (p : String) : Bool :=
  p.data.any (fun c => c == '?' || c == '*' || c == '[')

/-- The test `isRecursiveGlob` from `dircache.cc:149-151`: the component is exactly
`**`. -/
def isRecursiveGlob (p : String) : Bool :=
  p == "**"

/-- The record `DirEntry` from `dircache.h:23-29`. -/
structure DirEntry where
  name : String
  isDir : Bool
deriving DecidableEq

/-- The reflexive closure of `operator<(DirEntry, DirEntry)` from
`dircache.cc:24-26`: lexicographic on `(name, isDir)` (with
`false < true` on `bool`). `std::sort` with that `operator<` produces a
listing sorted by this relation. -/
def entryLe (a b : DirEntry) : Prop :=
  pathLtB a.name.data b.name.data = true
  ∨ (a.name = b.name ∧ (a.isDir = b.isDir ∨ a.isDir = false))

instance entryLe.instDecidable : DecidableRel entryLe := fun a b =>
  inferInstanceAs
    (Decidable (pathLtB a.name.data b.name.data = true
      ∨ (a.name = b.name ∧ (a.isDir = b.isDir ∨ a.isDir = false))))

/-- The `std::sort(entries.begin(), entries.end())` of `dircache.cc:125`,
embedded as a sort (insertion sort) by the entry order. -/
def sortEntries (l : List DirEntry) : List DirEntry :=
  l.insertionSort entryLe

/-- The anonymous-namespace `dirEntries(const std::string&)` of
`dircache.cc:49-128` (POSIX branch): the filesystem oracle returns the raw
enumeration (in unspecified order); a directory that cannot be opened
(`opendir` returns `NULL`, `dircache.cc:92-93`) yields the empty listing;
the result is sorted before being returned. The result is a plain list:
no error value or exception is produced. -/
def dirEntriesFs (fs : String → Option (List DirEntry)) (path : String) :
    List DirEntry :=
  sortEntries ((fs path).getD [])

/-- Observable state of a `DirCache` (`dircache.h:38-49` / tracking
instrumentation): the memoization map `_cache` (kept as an association
list in insertion order), the sequence of keys reported to the dependency
sink `_deps->addInput` (`dircache.cc:283`), and the sequence of keys
actually listed from the filesystem (`::dirEntries`, `dircache.cc:287`). -/
structure DirCacheState where
  cache : List (String × List DirEntry)
  deps : List String
  fsReads : List String

/-- The state of a freshly constructed `DirCache` (`dircache.cc:259`). -/
def initState : DirCacheState := ⟨[], [], []⟩

/-- The lookup `_cache.find(normalized)` on the association list. -/
def findEntry (key : String) : List (String × List DirEntry) → Option (List DirEntry)
  | [] => none
  | (k, v) :: rest => if k = key then some v else findEntry key rest

/-- The method `DirCache::dirEntries(const std::string&)` from `dircache.cc:272-289`:
normalize the path to the cache key (`Path::norm` lives in the
untranslated `path.h`, so it is kept as an oracle `norm`); on a hit return
the stored listing without touching the filesystem or the dependency
sink; on a miss notify the dependency sink with the normalized key, list
the directory, and insert the listing into the cache. -/
def dirEntriesCached (fs : String → Option (List DirEntry))
    (norm : String → String) (st : DirCacheState) (path : String) :
    List DirEntry × DirCacheState :=
  let key := norm path
  match findEntry key st.cache with
  | some es => (es, st)
  | none =>
    let es := dirEntriesFs fs key
    (es, ⟨st.cache ++ [(key, es)], st.deps ++ [key], st.fsReads ++ [key]⟩)

/-- A sequence of `DirCache::dirEntries` lookups, for "over the cache's
lifetime" statements. -/
def runLookups (fs : String → Option (List DirEntry)) (norm : String → String) :
    List String → DirCacheState → DirCacheState
  | [], st => st
  | p :: ps, st => runLookups fs norm ps (dirEntriesCached fs norm st p).2

/-- The loop bodies of the glob engine append callback invocations; the
embedding collects them into a list with this combinator. -/
def concatMap (f : α → List β) : List α → List β
  | [] => []
  | a :: l => f a ++ concatMap f l

/-- The helper `DirCache::glob(root, path, pattern, callback)` from
`dircache.cc:173-193`: if the pattern is empty, report the directory path
itself as a directory; otherwise list `join(root, path)` and report every
entry whose name matches the pattern, joined onto `path`, with its
`isDir` flag. The callback invocations are returned in order as
`(path, isDir)` pairs. -/
def globDir (fs : String → Option (List DirEntry))
    (root dirPath pattern : String) : List (String × Bool) :=
  if pattern = "" then [(dirPath, true)]
  else
    (dirEntriesFs fs (joinPath root dirPath)).filterMap (fun e =>
      if globMatch e.name.data pattern.data then
        some (joinPath dirPath e.name, e.isDir)
      else none)

/-- The walker `DirCache::globRecursive` from `dircache.cc:198-221`, with fuel
bounding the recursion depth (the C++ recursion is bounded by the finite
filesystem). The worker-pool fan-out is modelled by running each
enqueued subtree walk in place; the multiset of callback invocations is
the same for every schedule. The walk reports `path` itself as a
directory ("** matches 0 or more directories and thus includes this
one"), then for every entry of `join(root, path)` reports the joined
entry, and recurses into subdirectories. -/
def globRecursiveF (fs : String → Option (List DirEntry)) (root : String) :
    Nat → String → List (String × Bool)
  | 0, _ => []
  | fuel + 1, path =>
    (path, true) ::
      concatMap (fun e =>
          (joinPath path e.name, e.isDir) ::
            (if e.isDir then globRecursiveF fs root fuel (joinPath path e.name)
             else []))
        (dirEntriesFs fs (joinPath root path))

/-- The dispatcher `DirCache::glob(root, path, callback)` from `dircache.cc:226-257`:
split the pattern path into `(head, tail)` and dispatch:
* `head` contains a wildcard: glob `head` recursively and, for every
  directory match, glob `tail` inside it (`dircache.cc:230-237`);
* `tail` is exactly `**`: recursive walk rooted at `head`
  (`dircache.cc:238-241`);
* only `tail` contains a wildcard: match `tail` against the listing of
  `head` (`dircache.cc:242-245`);
* no wildcard at all: report the full path as a file if `tail` is
  non-empty, else report `head` as a directory, without any filesystem
  lookup (`dircache.cc:246-254`).
The fuel bounds the head recursion and the depth of recursive walks. -/
def globFullF (fs : String → Option (List DirEntry)) (root : String) :
    Nat → String → List (String × Bool)
  | 0, _ => []
  | fuel + 1, path =>
    let s := splitPath path
    if isGlobPattern s.1 then
      concatMap (fun q => if q.2 then globDir fs root q.1 s.2 else [])
        (globFullF fs root fuel s.1)
    else if isRecursiveGlob s.2 then
      globRecursiveF fs root (fuel + 1) s.1
    else if isGlobPattern s.2 then
      globDir fs root s.1 s.2
    else if s.2 = "" then [(s.1, true)]
    else [(path, false)]

/-- Number of occurrences of a delivered `(path, isDir)` pair. -/
def countOcc (x : String × Bool) : List (String × Bool) → Nat
  | [] => 0
  | y :: l => (if y = x then 1 else 0) + countOcc x l

/-- Number of occurrences of a delivered path. -/
def countStr (x : String) : List String → Nat
  | [] => 0
  | y :: l => (if y = x then 1 else 0) + countStr x l

/-- The `std::sort` of `glob.cc:243-244` on the collected match paths,
by the ordinal path order. -/
def sortStrings (l : List String) : List String :=
  l.insertionSort pathLe

/-- The `std::unique`-based duplicate removal of `glob.cc:247-250`:
remove adjacent equal entries (full deduplication on a sorted list). -/
def dedupAdjacent : List String → List String
  | [] => []
  | [x] => [x]
  | x :: y :: rest =>
    if x = y then dedupAdjacent (y :: rest)
    else x :: dedupAdjacent (y :: rest)

/-- The set-difference merge loop of `glob.cc:259-288`, iterators
modelled as suffix lists and transcribed literally; in particular, in the
`c < 0` branch the code increments the includes iterator *before* reading
the element it pushes (`glob.cc:265-270`). When that incremented iterator
is `includes.end()`, reading it is an out-of-bounds access; the total
embedding returns `none` for that branch. One unit of fuel is consumed
per loop iteration and every iteration advances at least one iterator, so
`includes.length + excludes.length` fuel is exact. -/
def mergeDiffF : Nat → List String → List String → Option (List String)
  | _, is, [] => some is
  | _, [], _ :: _ => some []
  | 0, _ :: _, _ :: _ => none
  | fuel + 1, i :: is, e :: es =>
    if pathLtB i.data e.data then
      match is with
      | [] => none
      | i2 :: _ => (mergeDiffF fuel is (e :: es)).map (fun r => i2 :: r)
    else if pathLtB e.data i.data then mergeDiffF fuel (i :: is) es
    else mergeDiffF fuel is es

/-- The merge loop with its exact fuel. -/
def mergeDiff (is es : List String) : Option (List String) :=
  mergeDiffF (is.length + es.length) is es

/-- The construction of the `excludes` vector at `glob.cc:231-239`: the
vector is sized with `poolIncludes.size()` (not `poolExcludes.size()`),
then `std::transform` writes the mapped excludes into it. With fewer
excludes than includes the trailing slots keep default-constructed
(empty) `Path`s; with more, the transform writes past the end of the
vector (undefined behaviour, modelled as `none`). -/
def buildExcludes (incl excl : List String) : Option (List String) :=
  if excl.length ≤ incl.length then
    some (excl ++ List.replicate (incl.length - excl.length) "")
  else none

/-- The aggregation tail of `lua_glob` (`glob.cc:231-288`) as a function
of the collected include and exclude match sets: build the `includes` and
`excludes` vectors, sort both, remove adjacent duplicates, and run the
set-difference merge. `none` models undefined behaviour. -/
def lua_glob_result (incl excl : List String) : Option (List String) :=
  match buildExcludes incl excl with
  | none => none
  | some excl2 =>
    mergeDiff (dedupAdjacent (sortStrings incl)) (dedupAdjacent (sortStrings excl2))

/-- The spec's aggregation law ("Set-difference law", §8), stated from
the spec's words for comparison with `lua_glob_result`: the sorted,
deduplicated value of the set difference of the expanded include and
exclude path sets. -/
def specSetDifference (incl excl : List String) : List String :=
  dedupAdjacent (sortStrings (incl.filter (fun p => !(excl.contains p))))

/-- Concrete filesystem oracle for the spec's `root/{a.txt, sub/b.txt}`
tree (§8, "Recursive wildcard"). -/
def fs1 : String → Option (List DirEntry) := fun p =>
  if p = "root" then some [⟨"a.txt", false⟩, ⟨"sub", true⟩]
  else if p = "root/sub" then some [⟨"b.txt", false⟩]
  else none

/-- A filesystem oracle on which every directory fails to open. -/
def fsNone : String → Option (List DirEntry) := fun _ => none

/-- A second concrete oracle, used to witness filesystem-independence. -/
def fsOne : String → Option (List DirEntry) := fun _ => some [⟨"z", false⟩]


theorem findClose_snd_length :
    ∀ (l cls after : List Char), findClose l = some (cls, after) →
      after.length < l.length := by
  intro l
  induction l with
  | nil => intro cls after h; simp [findClose] at h
  | cons c rest ih =>
    intro cls after h
    simp only [findClose] at h
    by_cases hc : c = ']'
    · simp [hc] at h
      simp [← h.2, List.length_cons, Nat.lt_succ_self]
    · simp only [hc, if_false, if_neg hc] at h
      rcases hb : findClose rest with _ | ca
      · rw [hb] at h; simp at h
      · obtain ⟨cls2, after2⟩ := ca
        rw [hb] at h
        simp at h
        have h2 := ih cls2 after2 (by rw [hb])
        have ha : after = after2 := h.2.symm
        rw [ha]
        simp only [List.length_cons]
        omega

theorem any_congr {α : Type} {l : List α} {f g : α → Bool}
    (h : ∀ x ∈ l, f x = g x) : l.any f = l.any g := by
  induction l with
  | nil => rfl
  | cons a t ih =>
    simp only [List.any_cons]
    rw [h a (List.mem_cons_self a t), ih (fun x hx => h x (List.mem_cons_of_mem a hx))]

theorem globMatchF_congr :
    ∀ f g path pat, path.length + pat.length < f → path.length + pat.length < g →
      globMatchF f path pat = globMatchF g path pat := by
  intro f
  induction f with
  | zero => intro g path pat h1 h2; omega
  | succ f ih =>
    intro g path pat h1 h2
    cases g with
    | zero => omega
    | succ g =>
      cases pat with
      | nil => simp [globMatchF]
      | cons c ps =>
        simp only [globMatchF]
        by_cases hc : c = '?'
        · simp only [hc, if_pos rfl]
          cases path with
          | nil => rfl
          | cons x rest =>
            apply ih
            · simp at h1 ⊢; omega
            · simp at h2 ⊢; omega
        · simp only [if_neg hc]
          by_cases hs : c = '*'
          · simp only [hs, if_pos rfl]
            by_cases he : ps.isEmpty
            · simp [he]
            · simp only [he, if_neg, Bool.false_eq_true, if_false]
              apply any_congr
              intro k hk
              apply ih
              · simp at h1 ⊢; omega
              · simp at h2 ⊢; omega
          · simp only [if_neg hs]
            by_cases hb : c = '['
            · simp only [hb, if_pos rfl]
              cases path with
              | nil => rfl
              | cons x rest =>
                cases ps with
                | nil => rfl
                | cons p ps2 =>
                  by_cases hp : p = '!'
                  · simp only [hp, if_pos rfl]
                    rcases hfc : findClose ps2 with _ | ca
                    · rfl
                    · have hlen := findClose_snd_length ps2 ca.1 ca.2 (by rw [hfc])
                      by_cases ha : ca.1.any (fun d => charCmp x d == 0)
                      · simp [ha]
                      · simp only [ha, Bool.false_eq_true, if_false]
                        apply ih
                        · simp at h1 ⊢; omega
                        · simp at h2 ⊢; omega
                  · simp only [if_neg hp]
                    rcases hfc : findClose (p :: ps2) with _ | ca
                    · rfl
                    · have hlen := findClose_snd_length (p :: ps2) ca.1 ca.2 (by rw [hfc])
                      by_cases ha : ca.1.any (fun d => charCmp x d == 0)
                      · simp only [ha, if_pos]
                        apply ih
                        · simp at h1 hlen ⊢; omega
                        · simp at h2 hlen ⊢; omega
                      · simp [ha]
            · simp only [if_neg hb]
              cases path with
              | nil => rfl
              | cons x rest =>
                by_cases hcc : charCmp x c == 0
                · simp only [hcc, if_pos]
                  apply ih
                  · simp at h1 ⊢; omega
                  · simp at h2 ⊢; omega
                · simp [hcc]

theorem globMatchF_star (fuel : Nat) (path ps : List Char)
    (h : ps.isEmpty = false) :
    globMatchF (fuel + 1) path ('*' :: ps)
      = (List.range path.length).any (fun k => globMatchF fuel (path.drop k) ps) := by
  simp [globMatchF, h]

theorem findClose_eq_none {l : List Char} (h : ']' ∉ l) : findClose l = none := by
  induction l with
  | nil => rfl
  | cons c rest ih =>
    simp only [findClose]
    have hc : ¬ c = ']' := fun he => h (he ▸ List.mem_cons_self c rest)
    rw [if_neg hc, ih (fun hm => h (List.mem_cons_of_mem c hm))]
    rfl

/-- C4 (counterexample): the claim states that a `*` that is not at the
end of the pattern succeeds exactly when *some* split point of the
remaining path — including the split that leaves the empty remainder —
lets the rest of the pattern match the rest of the path. For the path
`""` and the pattern `"**"`, the first `*` is not at the end, the only
split of the remaining path `""` leaves the empty remainder, and the rest
of the pattern `"*"` matches that empty remainder (second conjunct); the
claim therefore requires `globMatch "" "**" = true`, but the matcher
returns `false` (first conjunct): the loop `for (; i < path.length; ++i)`
at `glob.cc:58` never tries the empty suffix. -/
theorem star_empty_remainder_cex :
    globMatchS "" "**" = false ∧ globMatchS "" "*" = true := by decide

/-- C4 (amended): a `*` at the end of the pattern matches the entire
remaining path unconditionally, and a `*` elsewhere succeeds exactly when
some split point of the remaining path that leaves a *non-empty*
remainder lets the rest of the pattern match the rest of the path (the
split with the empty remainder, `k = path.length`, is never tried). -/
theorem star_semantics_amended (path ps : List Char) (h : ps ≠ []) :
    globMatch path ['*'] = true ∧
    (globMatch path ('*' :: ps) = true ↔
      ∃ k, k < path.length ∧ globMatch (path.drop k) ps = true) := by
  have he : ps.isEmpty = false := by
    cases ps with
    | nil => exact absurd rfl h
    | cons a l => rfl
  constructor
  · simp [globMatch, globMatchF]
  · rw [show globMatch path ('*' :: ps)
        = globMatchF (path.length + (ps.length + 1) + 1) path ('*' :: ps) by
      simp [globMatch]]
    rw [globMatchF_star _ _ _ he]
    rw [List.any_eq_true]
    constructor
    · rintro ⟨k, hk, hglob⟩
      rw [List.mem_range] at hk
      refine ⟨k, hk, ?_⟩
      have ht := globMatchF_congr (path.length + (ps.length + 1))
        ((path.drop k).length + ps.length + 1) (path.drop k) ps
        (by simp [List.length_drop]; omega) (by omega)
      rw [globMatch, ← ht]
      exact hglob
    · rintro ⟨k, hk, hglob⟩
      refine ⟨k, List.mem_range.mpr hk, ?_⟩
      have ht := globMatchF_congr (path.length + (ps.length + 1))
        ((path.drop k).length + ps.length + 1) (path.drop k) ps
        (by simp [List.length_drop]; omega) (by omega)
      rw [ht]
      exact hglob

/-- Witness for `star_semantics_amended` at `path = "ab"`, `ps = "b"`. -/
theorem star_semantics_amended_witness :
    globMatch "ab".data ['*'] = true ∧
    (globMatch "ab".data ('*' :: ['b']) = true ↔
      ∃ k, k < "ab".data.length ∧ globMatch ("ab".data.drop k) ['b'] = true) :=
  star_semantics_amended "ab".data ['b'] (by decide)

/-- C10: the pattern matcher satisfies the spec's correctness table
(`match("abc","a?c")`, `match("abc","a*")`, `match("abc","*d")`,
`match("b","[abc]")`, `match("d","[!abc]")`), bracket classes have no
range support (`[a-c]` lists exactly the characters `a`, `-`, `c`
literally, so it rejects `b` and accepts `-`), and a pattern whose
bracket class is unterminated (no `]` before the end of the pattern) is a
non-match for every path. -/
theorem pattern_matcher_table :
    globMatchS "abc" "a?c" = true ∧ globMatchS "abc" "a*" = true
    ∧ globMatchS "abc" "*d" = false ∧ globMatchS "b" "[abc]" = true
    ∧ globMatchS "d" "[!abc]" = true ∧ globMatchS "b" "[a-c]" = false
    ∧ globMatchS "-" "[a-c]" = true
    ∧ (∀ path cls : List Char, ']' ∉ cls → globMatch path ('[' :: cls) = false) := by
  refine ⟨by decide, by decide, by decide, by decide, by decide, by decide,
    by decide, ?_⟩
  intro path cls hcl
  have hfc : findClose cls = none := findClose_eq_none hcl
  simp only [globMatch, List.length_cons]
  cases path with
  | nil => simp [globMatchF]
  | cons x rest =>
    cases cls with
    | nil => simp [globMatchF]
    | cons p ps2 =>
      by_cases hp : p = '!'
      · have hfc2 : findClose ps2 = none :=
          findClose_eq_none (fun hm => hcl (List.mem_cons_of_mem p hm))
        simp [globMatchF, hp, hfc2]
      · simp [globMatchF, hp, hfc]

/-- Witness for the universally quantified part of
`pattern_matcher_table` at `path = "x"`, `cls = "ab"`. -/
theorem pattern_matcher_table_witness :
    globMatch "x".data ('[' :: "ab".data) = false :=
  pattern_matcher_table.2.2.2.2.2.2.2 "x".data "ab".data (by decide)

theorem string_data_inj {s t : String} (h : s.data = t.data) : s = t := by
  cases s
  cases t
  exact congrArg String.mk h

theorem pathLtB_irrefl : ∀ x : List Char, pathLtB x x = false := by
  intro x
  induction x with
  | nil => rfl
  | cons a as ih => simp [pathLtB, lt_irrefl, ih]

theorem pathLtB_trans :
    ∀ x y z : List Char, pathLtB x y = true → pathLtB y z = true →
      pathLtB x z = true := by
  intro x
  induction x with
  | nil =>
    intro y z hxy hyz
    cases y with
    | nil => simp [pathLtB] at hxy
    | cons b bs =>
      cases z with
      | nil => simp [pathLtB] at hyz
      | cons c cs => simp [pathLtB]
  | cons a as ih =>
    intro y z hxy hyz
    cases y with
    | nil => simp [pathLtB] at hxy
    | cons b bs =>
      cases z with
      | nil => simp [pathLtB] at hyz
      | cons c cs =>
        simp only [pathLtB] at hxy hyz ⊢
        rcases lt_trichotomy a b with hab | hab | hab
        · rcases lt_trichotomy b c with hbc | hbc | hbc
          · simp [lt_trans hab hbc]
          · subst hbc; simp [hab]
          · rw [if_neg (asymm hbc), if_pos hbc] at hyz
            exact absurd hyz (by simp)
        · subst hab
          rw [if_neg (lt_irrefl a), if_neg (lt_irrefl a)] at hxy
          rcases lt_trichotomy a c with hac | hac | hac
          · simp [hac]
          · subst hac
            rw [if_neg (lt_irrefl a), if_neg (lt_irrefl a)] at hyz ⊢
            exact ih bs cs hxy hyz
          · rw [if_neg (asymm hac), if_pos hac] at hyz
            exact absurd hyz (by simp)
        · rw [if_neg (asymm hab), if_pos hab] at hxy
          exact absurd hxy (by simp)

theorem pathLtB_trichotomy :
    ∀ x y : List Char, pathLtB x y = true ∨ x = y ∨ pathLtB y x = true := by
  intro x
  induction x with
  | nil =>
    intro y
    cases y with
    | nil => exact Or.inr (Or.inl rfl)
    | cons b bs => exact Or.inl (by simp [pathLtB])
  | cons a as ih =>
    intro y
    cases y with
    | nil => exact Or.inr (Or.inr (by simp [pathLtB]))
    | cons b bs =>
      rcases lt_trichotomy a b with hab | hab | hab
      · exact Or.inl (by simp [pathLtB, hab])
      · subst hab
        rcases ih bs with h | h | h
        · exact Or.inl (by simp [pathLtB, lt_irrefl, h])
        · exact Or.inr (Or.inl (by rw [h]))
        · exact Or.inr (Or.inr (by simp [pathLtB, lt_irrefl, h]))
      · exact Or.inr (Or.inr (by simp [pathLtB, hab]))

theorem pathLtB_asymm {x y : List Char} (h : pathLtB x y = true) :
    pathLtB y x = false := by
  cases hb : pathLtB y x with
  | false => rfl
  | true =>
    have h3 := pathLtB_trans x y x h hb
    rw [pathLtB_irrefl] at h3
    exact absurd h3 (by simp)

theorem entryLe_total : ∀ a b : DirEntry, entryLe a b ∨ entryLe b a := by
  intro a b
  rcases pathLtB_trichotomy a.name.data b.name.data with h | h | h
  · exact Or.inl (Or.inl h)
  · have hn : a.name = b.name := string_data_inj h
    cases ha : a.isDir <;> cases hb2 : b.isDir
    · exact Or.inl (Or.inr ⟨hn, Or.inl (by rw [ha, hb2])⟩)
    · exact Or.inl (Or.inr ⟨hn, Or.inr ha⟩)
    · exact Or.inr (Or.inr ⟨hn.symm, Or.inr hb2⟩)
    · exact Or.inl (Or.inr ⟨hn, Or.inl (by rw [ha, hb2])⟩)
  · exact Or.inr (Or.inl h)

theorem entryLe_trans : ∀ a b c : DirEntry, entryLe a b → entryLe b c → entryLe a c := by
  intro a b c hab hbc
  rcases hab with h1 | ⟨h1n, h1d⟩
  · rcases hbc with h2 | ⟨h2n, h2d⟩
    · exact Or.inl (pathLtB_trans _ _ _ h1 h2)
    · exact Or.inl (by rw [← h2n]; exact h1)
  · rcases hbc with h2 | ⟨h2n, h2d⟩
    · exact Or.inl (by rw [h1n]; exact h2)
    · refine Or.inr ⟨h1n.trans h2n, ?_⟩
      rcases h1d with h1d | h1d
      · rcases h2d with h2d | h2d
        · exact Or.inl (by rw [h1d, h2d])
        · exact Or.inr (by rw [h1d, h2d])
      · exact Or.inr h1d

theorem entryLe_antisymm : ∀ a b : DirEntry, entryLe a b → entryLe b a → a = b := by
  intro a b hab hba
  rcases hab with h1 | ⟨h1n, h1d⟩
  · rcases hba with h2 | ⟨h2n, h2d⟩
    · rw [pathLtB_asymm h1] at h2
      exact absurd h2 (by simp)
    · rw [h2n, pathLtB_irrefl] at h1
      exact absurd h1 (by simp)
  · rcases hba with h2 | ⟨h2n, h2d⟩
    · rw [h1n, pathLtB_irrefl] at h2
      exact absurd h2 (by simp)
    · have hd : a.isDir = b.isDir := by
        rcases h1d with h | h
        · exact h
        · rcases h2d with h2 | h2
          · exact h2.symm
          · rw [h, h2]
      cases a
      cases b
      simp_all

/-- C7: every directory listing delivered by the engine is sorted by
`(name, isDir)` (the reflexive closure of `operator<(DirEntry, DirEntry)`,
`dircache.cc:24-26` and `dircache.cc:123-127`), and for a fixed set of
directory contents (any two raw filesystem enumerations that are
permutations of each other) the returned `DirEntries` sequence is
identical. -/
theorem dirEntries_sorted_deterministic (fs : String → Option (List DirEntry))
    (key : String) (raw1 raw2 : List DirEntry) (h : raw1.Perm raw2) :
    (dirEntriesFs fs key).Sorted entryLe ∧ sortEntries raw1 = sortEntries raw2 := by
  haveI ht : IsTotal DirEntry entryLe := ⟨entryLe_total⟩
  haveI htr : IsTrans DirEntry entryLe := ⟨entryLe_trans⟩
  haveI has : IsAntisymm DirEntry entryLe := ⟨entryLe_antisymm⟩
  constructor
  · simp only [dirEntriesFs, sortEntries]
    exact List.sorted_insertionSort entryLe _
  · simp only [sortEntries]
    exact List.eq_of_perm_of_sorted
      (((List.perm_insertionSort entryLe raw1).trans h).trans
        (List.perm_insertionSort entryLe raw2).symm)
      (List.sorted_insertionSort entryLe raw1)
      (List.sorted_insertionSort entryLe raw2)

/-- Witness for `dirEntries_sorted_deterministic`: two enumeration orders
of the same directory content produce the same sorted listing. -/
theorem dirEntries_sorted_deterministic_witness :
    (dirEntriesFs fs1 "root").Sorted entryLe ∧
    sortEntries [⟨"b", false⟩, ⟨"a", true⟩] = sortEntries [⟨"a", true⟩, ⟨"b", false⟩] :=
  dirEntries_sorted_deterministic fs1 "root" [⟨"b", false⟩, ⟨"a", true⟩]
    [⟨"a", true⟩, ⟨"b", false⟩]
    (List.Perm.swap (⟨"a", true⟩ : DirEntry) (⟨"b", false⟩ : DirEntry) [])

theorem findEntry_eq_none_iff (key : String) :
    ∀ l : List (String × List DirEntry),
      findEntry key l = none ↔ key ∉ l.map Prod.fst := by
  intro l
  induction l with
  | nil => simp [findEntry]
  | cons kv rest ih =>
    obtain ⟨k, v⟩ := kv
    simp only [findEntry, List.map_cons, List.mem_cons]
    by_cases hk : k = key
    · simp [hk]
    · rw [if_neg hk, ih]
      simp [Ne.symm hk]

theorem findEntry_append_self (key : String) (v : List DirEntry) :
    ∀ l, findEntry key l = none → findEntry key (l ++ [(key, v)]) = some v := by
  intro l
  induction l with
  | nil => intro _; simp [findEntry]
  | cons kv rest ih =>
    obtain ⟨k, w⟩ := kv
    intro h
    simp only [findEntry, List.cons_append] at h ⊢
    by_cases hk : k = key
    · rw [if_pos hk] at h
      exact absurd h (by simp)
    · rw [if_neg hk] at h ⊢
      exact ih h

theorem dirEntriesCached_hit (fs : String → Option (List DirEntry))
    (norm : String → String) (st : DirCacheState) (p : String) (es : List DirEntry)
    (h : findEntry (norm p) st.cache = some es) :
    dirEntriesCached fs norm st p = (es, st) := by
  simp only [dirEntriesCached]
  rw [h]

theorem dirEntriesCached_miss (fs : String → Option (List DirEntry))
    (norm : String → String) (st : DirCacheState) (p : String)
    (h : findEntry (norm p) st.cache = none) :
    dirEntriesCached fs norm st p
      = (dirEntriesFs fs (norm p),
         ⟨st.cache ++ [(norm p, dirEntriesFs fs (norm p))],
          st.deps ++ [norm p], st.fsReads ++ [norm p]⟩) := by
  simp only [dirEntriesCached]
  rw [h]

theorem dirEntriesCached_inv (fs : String → Option (List DirEntry))
    (norm : String → String) (st : DirCacheState) (p : String)
    (h1 : st.deps = st.fsReads) (h2 : st.deps = st.cache.map Prod.fst)
    (h3 : st.deps.Nodup) :
    (dirEntriesCached fs norm st p).2.deps = (dirEntriesCached fs norm st p).2.fsReads
    ∧ (dirEntriesCached fs norm st p).2.deps
        = (dirEntriesCached fs norm st p).2.cache.map Prod.fst
    ∧ (dirEntriesCached fs norm st p).2.deps.Nodup := by
  rcases hf : findEntry (norm p) st.cache with _ | es
  · rw [dirEntriesCached_miss fs norm st p hf]
    refine ⟨by simp [h1], by simp [h2], ?_⟩
    have hk : norm p ∉ st.cache.map Prod.fst := (findEntry_eq_none_iff _ _).mp hf
    rw [← h2] at hk
    have hperm : (st.deps ++ [norm p]).Perm ([norm p] ++ st.deps) :=
      List.perm_append_comm
    rw [hperm.nodup_iff]
    rw [List.singleton_append, List.nodup_cons]
    exact ⟨hk, h3⟩
  · rw [dirEntriesCached_hit fs norm st p es hf]
    exact ⟨h1, h2, h3⟩

theorem runLookups_inv (fs : String → Option (List DirEntry))
    (norm : String → String) :
    ∀ (paths : List String) (st : DirCacheState),
      st.deps = st.fsReads → st.deps = st.cache.map Prod.fst → st.deps.Nodup →
      (runLookups fs norm paths st).deps = (runLookups fs norm paths st).fsReads
      ∧ (runLookups fs norm paths st).deps
          = (runLookups fs norm paths st).cache.map Prod.fst
      ∧ (runLookups fs norm paths st).deps.Nodup := by
  intro paths
  induction paths with
  | nil => intro st h1 h2 h3; exact ⟨h1, h2, h3⟩
  | cons p ps ih =>
    intro st h1 h2 h3
    simp only [runLookups]
    obtain ⟨g1, g2, g3⟩ := dirEntriesCached_inv fs norm st p h1 h2 h3
    exact ih _ g1 g2 g3

theorem dirEntriesCached_idem (fs : String → Option (List DirEntry))
    (norm : String → String) (st : DirCacheState) (p : String) :
    dirEntriesCached fs norm (dirEntriesCached fs norm st p).2 p
      = dirEntriesCached fs norm st p := by
  rcases hf : findEntry (norm p) st.cache with _ | es
  · rw [dirEntriesCached_miss fs norm st p hf]
    have h2 : findEntry (norm p)
        (st.cache ++ [(norm p, dirEntriesFs fs (norm p))])
        = some (dirEntriesFs fs (norm p)) :=
      findEntry_append_self _ _ _ hf
    exact dirEntriesCached_hit fs norm _ p _ h2
  · rw [dirEntriesCached_hit fs norm st p es hf]
    exact dirEntriesCached_hit fs norm st p es hf

/-- C5: after any sequence of lookups from a fresh cache, looking a
directory up twice returns identical entries and leaves the cache state —
including the record of filesystem reads and of dependency-sink
notifications — unchanged on the second lookup (so a cache hit performs
no filesystem access and never notifies the sink); moreover the
dependency sink has been notified exactly once per distinct normalized
directory over the cache's lifetime: the notification sequence equals the
sequence of directories actually listed from disk and contains no
duplicates. `Path::norm` is an oracle parameter, so this holds for every
normalization function. -/
theorem dirCache_idempotent_deps_once (fs : String → Option (List DirEntry))
    (norm : String → String) (paths : List String) (p : String) :
    dirEntriesCached fs norm
        (dirEntriesCached fs norm (runLookups fs norm paths initState) p).2 p
      = dirEntriesCached fs norm (runLookups fs norm paths initState) p
    ∧ (runLookups fs norm paths initState).deps
        = (runLookups fs norm paths initState).fsReads
    ∧ (runLookups fs norm paths initState).deps.Nodup := by
  refine ⟨dirEntriesCached_idem fs norm _ p, ?_, ?_⟩
  · exact (runLookups_inv fs norm paths initState rfl rfl List.nodup_nil).1
  · exact (runLookups_inv fs norm paths initState rfl rfl List.nodup_nil).2.2

/-- C8: a directory that cannot be opened (the filesystem oracle returns
`none`, `dircache.cc:92-93`) yields an empty listing rather than an error
— the listing function's return type carries no error case at all — and a
glob whose directory part cannot be listed produces no matches. -/
theorem unreadable_dir_yields_empty (fs : String → Option (List DirEntry))
    (root dirPath pat : String) (h : fs (joinPath root dirPath) = none)
    (hp : pat ≠ "") :
    dirEntriesFs fs (joinPath root dirPath) = []
    ∧ globDir fs root dirPath pat = [] := by
  have h1 : dirEntriesFs fs (joinPath root dirPath) = [] := by
    simp [dirEntriesFs, sortEntries, h]
  refine ⟨h1, ?_⟩
  simp [globDir, hp, h1]

/-- Witness for `unreadable_dir_yields_empty` on the everywhere-failing
filesystem. -/
theorem unreadable_dir_yields_empty_witness :
    dirEntriesFs fsNone (joinPath "r" "d") = []
    ∧ globDir fsNone "r" "d" "?" = [] :=
  unreadable_dir_yields_empty fsNone "r" "d" "?" rfl (by decide)

theorem splitPath_head_data (p : String) :
    (splitPath p).1.data
      = (((p.data.reverse).dropWhile (fun c => !(c == '/'))).drop 1).reverse := rfl

theorem splitPath_tail_data (p : String) :
    (splitPath p).2.data
      = ((p.data.reverse).takeWhile (fun c => !(c == '/'))).reverse := rfl

theorem mem_splitPath_head {c : Char} {p : String}
    (h : c ∈ (splitPath p).1.data) : c ∈ p.data := by
  rw [splitPath_head_data, List.mem_reverse] at h
  have h2 := List.drop_subset 1 _ h
  have h3 := (List.dropWhile_sublist _).subset h2
  rwa [List.mem_reverse] at h3

theorem mem_splitPath_tail {c : Char} {p : String}
    (h : c ∈ (splitPath p).2.data) : c ∈ p.data := by
  rw [splitPath_tail_data, List.mem_reverse] at h
  have h3 := (List.takeWhile_sublist _).subset h
  rwa [List.mem_reverse] at h3

theorem isGlobPattern_false_sub {p q : String}
    (hsub : ∀ c : Char, c ∈ q.data → c ∈ p.data)
    (h : isGlobPattern p = false) : isGlobPattern q = false := by
  simp only [isGlobPattern, List.any_eq_false] at h ⊢
  intro c hc
  exact h c (hsub c hc)

/-- C9: a pattern containing no wildcard characters performs no
filesystem lookup (the result is the same for every filesystem oracle)
and reports exactly one match: the full pattern path with `isDir = false`
when the final component is non-empty, else the head with
`isDir = true` — existence on disk is never checked
(`dircache.cc:246-254`). -/
theorem literal_pattern_passthrough (fs gs : String → Option (List DirEntry))
    (root path : String) (fuel : Nat) (h : isGlobPattern path = false) :
    globFullF fs root (fuel + 1) path = globFullF gs root (fuel + 1) path
    ∧ globFullF fs root (fuel + 1) path
        = (if (splitPath path).2 = "" then [((splitPath path).1, true)]
           else [(path, false)]) := by
  have hhead := isGlobPattern_false_sub (fun c hc => mem_splitPath_head hc) h
  have htail := isGlobPattern_false_sub (fun c hc => mem_splitPath_tail hc) h
  have hrec : isRecursiveGlob (splitPath path).2 = false := by
    cases hr : isRecursiveGlob (splitPath path).2
    · rfl
    · exfalso
      have heq : (splitPath path).2 = "**" := by
        simpa [isRecursiveGlob] using hr
      have hstar : '*' ∈ (splitPath path).2.data := by
        rw [heq]; decide
      have hmem : '*' ∈ path.data := mem_splitPath_tail hstar
      simp only [isGlobPattern, List.any_eq_false] at h
      have := h '*' hmem
      simp at this
  constructor
  · simp [globFullF, hhead, hrec, htail]
  · simp [globFullF, hhead, hrec, htail]

/-- Witness for `literal_pattern_passthrough` on the literal pattern
`foo/bar.txt`, with two different filesystem oracles. -/
theorem literal_pattern_passthrough_witness :
    globFullF fsOne "r" (0 + 1) "foo/bar.txt" = globFullF fsNone "r" (0 + 1) "foo/bar.txt"
    ∧ globFullF fsOne "r" (0 + 1) "foo/bar.txt"
        = (if (splitPath "foo/bar.txt").2 = "" then [((splitPath "foo/bar.txt").1, true)]
           else [("foo/bar.txt", false)]) :=
  literal_pattern_passthrough fsOne fsNone "r" "foo/bar.txt" 0 (by decide)

/-- C1: evaluation of the aggregation at a failing input. With include
patterns expanding to `I = {"a", "c"}` and exclude patterns expanding to
`E = {"b"}`, the sorted deduplicated set difference required by the spec
is `["a", "c"]` (second conjunct), but the merge loop of
`glob.cc:262-281` — which in its `c < 0` branch advances the includes
iterator *before* reading the element it pushes — returns `["c", "c"]`
(first conjunct). The code's own comment says it computes
`(includes - excludes)`, and spec §9 flags this merge as a likely bug. -/
theorem lua_glob_set_difference_bug :
    lua_glob_result ["a", "c"] ["b"] = some ["c", "c"]
    ∧ specSetDifference ["a", "c"] ["b"] = ["a", "c"]
    ∧ ¬ lua_glob_result ["a", "c"] ["b"]
        = some (specSetDifference ["a", "c"] ["b"]) := by
  decide

/-- C2: evaluation of the merge at a failing input. With the sorted,
deduplicated lists `includes = ["a"]` and `excludes = ["b"]`, the
`c < 0` branch of `glob.cc:265-270` advances the includes iterator to
`includes.end()` and then dereferences it: in the total embedding the
out-of-bounds branch is reached and the merge returns `none`, so the
claim that every read of the includes list is in-bounds is false. -/
theorem merge_out_of_bounds_read :
    mergeDiff ["a"] ["b"] = none ∧ lua_glob_result ["a"] ["b"] = none := by
  decide

/-- C3 (counterexample): one `glob` invocation (pattern `root/**` over the
tree `root/{a.txt, sub/b.txt}`) delivers the path `root/sub` twice — once
as an entry of `root`'s listing (`dircache.cc:209`) and once as the head
of its own recursive walk (`dircache.cc:204`) — so the callback is not
invoked exactly once per discovered path. -/
theorem glob_duplicate_delivery_cex :
    countStr "root/sub" ((globFullF fs1 "" 5 "root/**").map Prod.fst) = 2 := by
  decide

theorem countOcc_cons (x y : String × Bool) (l : List (String × Bool)) :
    countOcc x (y :: l) = (if y = x then 1 else 0) + countOcc x l := rfl

theorem countOcc_append (x : String × Bool) (l1 l2 : List (String × Bool)) :
    countOcc x (l1 ++ l2) = countOcc x l1 + countOcc x l2 := by
  induction l1 with
  | nil => simp [countOcc]
  | cons a t ih =>
    rw [List.cons_append, countOcc_cons, ih, countOcc_cons]
    omega

theorem countOcc_concatMap_ge {α : Type} (g : α → List (String × Bool))
    (l : List α) (a : α) (h : a ∈ l) (x : String × Bool) :
    countOcc x (g a) ≤ countOcc x (concatMap g l) := by
  induction l with
  | nil => cases h
  | cons b t ih =>
    simp only [concatMap, countOcc_append]
    rcases List.mem_cons.mp h with h | h
    · subst h
      exact Nat.le_add_right _ _
    · exact le_trans (ih h) (Nat.le_add_left _ _)

theorem globRecursiveF_head (fs : String → Option (List DirEntry))
    (root p : String) (fuel : Nat) :
    ∃ tl, globRecursiveF fs root (fuel + 1) p = (p, true) :: tl :=
  ⟨_, rfl⟩

theorem countOcc_globRecursiveF_self (fs : String → Option (List DirEntry))
    (root p : String) (fuel : Nat) :
    1 ≤ countOcc (p, true) (globRecursiveF fs root (fuel + 1) p) := by
  obtain ⟨tl, htl⟩ := globRecursiveF_head fs root p fuel
  rw [htl, countOcc_cons, if_pos rfl]
  omega

/-- C3 (amended): during one glob operation the match callback is invoked
at least once per discovered path but not exactly once: every entry of a
directory reached by the recursive `**` walk that is itself a directory
is delivered at least twice, once as an entry of its parent's listing and
once as the root of its own recursive subtree walk. -/
theorem globRecursive_delivers_subdir_twice (fs : String → Option (List DirEntry))
    (root p : String) (fuel : Nat) (e : DirEntry)
    (he : e ∈ dirEntriesFs fs (joinPath root p)) (hd : e.isDir = true) :
    2 ≤ countOcc (joinPath p e.name, true) (globRecursiveF fs root (fuel + 2) p) := by
  have hstep : globRecursiveF fs root (fuel + 2) p
      = (p, true) ::
          concatMap (fun e2 =>
              (joinPath p e2.name, e2.isDir) ::
                (if e2.isDir then
                  globRecursiveF fs root (fuel + 1) (joinPath p e2.name)
                 else []))
            (dirEntriesFs fs (joinPath root p)) := rfl
  rw [hstep, countOcc_cons]
  have h2 : 2 ≤ countOcc (joinPath p e.name, true)
      (concatMap (fun e2 =>
          (joinPath p e2.name, e2.isDir) ::
            (if e2.isDir then
              globRecursiveF fs root (fuel + 1) (joinPath p e2.name)
             else []))
        (dirEntriesFs fs (joinPath root p))) := by
    refine le_trans ?_ (countOcc_concatMap_ge _ _ e he _)
    show 2 ≤ countOcc (joinPath p e.name, true)
        ((joinPath p e.name, e.isDir) ::
          (if e.isDir then
            globRecursiveF fs root (fuel + 1) (joinPath p e.name)
           else []))
    rw [hd, if_pos rfl]
    have h1 := countOcc_globRecursiveF_self fs root (joinPath p e.name) fuel
    rw [countOcc_cons, if_pos rfl]
    omega
  omega

/-- Witness for `globRecursive_delivers_subdir_twice`: the subdirectory
`sub` of `root` in the `root/{a.txt, sub/b.txt}` tree is delivered twice. -/
theorem globRecursive_delivers_subdir_twice_witness :
    2 ≤ countOcc (joinPath "root" "sub", true) (globRecursiveF fs1 "" (0 + 2) "root") :=
  globRecursive_delivers_subdir_twice fs1 "" "root" 0 ⟨"sub", true⟩ (by decide) rfl

/-- C6: whenever the final component of the pattern is exactly `**` (and
the head is wildcard-free, so the recursive branch of
`dircache.cc:238-241` is the one taken), the walk's first delivered match
is the directory it is rooted at, as a directory (zero directories
consumed); and on the concrete tree `root/{a.txt, sub/b.txt}`, globbing
`root/**` yields exactly the set of matches
`{root, root/a.txt, root/sub, root/sub/b.txt}`. -/
theorem glob_recursive_includes_root (fs : String → Option (List DirEntry))
    (root path : String) (fuel : Nat)
    (h1 : isGlobPattern (splitPath path).1 = false)
    (h2 : (splitPath path).2 = "**") :
    (globFullF fs root (fuel + 1) path).head? = some ((splitPath path).1, true)
    ∧ ((globFullF fs1 "" 5 "root/**").map Prod.fst).dedup
        = ["root", "root/a.txt", "root/sub", "root/sub/b.txt"] := by
  constructor
  · have hrec : isRecursiveGlob (splitPath path).2 = true := by
      rw [h2]; rfl
    simp only [globFullF]
    simp [h1, hrec, globRecursiveF]
  · decide

/-- Witness for `glob_recursive_includes_root` at the pattern `root/**`
over the `root/{a.txt, sub/b.txt}` tree. -/
theorem glob_recursive_includes_root_witness :
    (globFullF fs1 "" (4 + 1) "root/**").head? = some ((splitPath "root/**").1, true)
    ∧ ((globFullF fs1 "" 5 "root/**").map Prod.fst).dedup
        = ["root", "root/a.txt", "root/sub", "root/sub/b.txt"] :=
  glob_recursive_includes_root fs1 "" "root/**" 4 (by decide) (by decide)
